import Mathlib

/-!
# Relevant Segment Extraction (RSE) — verification of the core algorithm

Shallow embedding of the Relevant Segment Extraction subsystem of the
RAG_Techniques repository (notebook `all_rag_techniques/simple_rag.ipynb`):

* `get_best_segments` — the constrained greedy maximum-sum-subarray search
  over per-chunk relevance values;
* `compute_chunk_value` — the rank-decay relevance fusion used by
  `rerank_chunks`;
* `split_into_chunks` — the non-overlapping fixed-size chunker contract.

Python floats are modelled as exact rationals (`ℚ`) for the segment search
and as reals (`ℝ`) where the transcendental `exp` appears.  Python `int`
parameters that may be non-positive are modelled as `ℤ`.

The notebook's overlap-check expression
`any(start < seg_end and end > seg_start, seg_end in best_segments)` is
ill-formed Python (two arguments to `any`, `seg_start`/`seg_end` unbound);
following the specification, the overlap test is modelled as the standard
interval-intersection test
`any(start < seg_end and end > seg_start for seg_start, seg_end in
best_segments)`, the unambiguous intent of the source line.

The Python `while total_length < overall_max_length` loop is modelled with
fuel `overall_max_length.toNat + 1`: every selected segment has length at
least 1, so the loop body runs at most `overall_max_length.toNat` times and
this fuel is never exhausted before the loop's own exit conditions fire.
-/

/-- `sum(relevance_values[start:end])` — Python slice sum. -/
def segmentSum (rv : List ℚ) (s e : ℕ) : ℚ :=
  ((rv.drop s).take (e - s)).sum

/-- The overlap test between candidate window `[s, e)` and the already
selected segments: `any(s < seg_end and e > seg_start for seg_start,
seg_end in best_segments)`. -/
def overlapsAny (segs : List (ℕ × ℕ)) (s e : ℕ) : Bool :=
  segs.any fun seg => decide (s < seg.2) && decide (seg.1 < e)

/-- The inner `for end in range(start+1, min(start+max_length+1,
len(relevance_values)+1))` iteration space. -/
def candidateEnds (n : ℕ) (max_length : ℤ) (start : ℕ) : List ℕ :=
  List.range' (start + 1)
    ((min ((start : ℤ) + max_length + 1) ((n : ℤ) + 1) - ((start : ℤ) + 1)).toNat)

/-- Body of the inner `for end in ...` loop: threads the accumulator
`(best_value, best_segment)` through the candidate end positions for a
fixed `start`, skipping negative-valued end chunks, overlapping windows and
windows that would exceed the overall budget, and keeping a strictly
greater `segment_value` when found. -/
def scanEnds (rv : List ℚ) (oml : ℤ) (segs : List (ℕ × ℕ)) (tl : ℕ) (start : ℕ) :
    List ℕ → ℚ × Option (ℕ × ℕ) → ℚ × Option (ℕ × ℕ)
  | [], acc => acc
  | e :: rest, acc =>
    if rv.getD (e - 1) 0 < 0 then
      scanEnds rv oml segs tl start rest acc
    else if overlapsAny segs start e then
      scanEnds rv oml segs tl start rest acc
    else if oml < (tl : ℤ) + (e : ℤ) - (start : ℤ) then
      scanEnds rv oml segs tl start rest acc
    else
      scanEnds rv oml segs tl start rest
        (if acc.1 < segmentSum rv start e then (segmentSum rv start e, some (start, e)) else acc)

/-- Body of the outer `for start in range(len(relevance_values))` loop:
skips negative-valued start chunks and otherwise runs the inner end
loop. -/
def scanStarts (rv : List ℚ) (ml oml : ℤ) (segs : List (ℕ × ℕ)) (tl : ℕ) :
    List ℕ → ℚ × Option (ℕ × ℕ) → ℚ × Option (ℕ × ℕ)
  | [], acc => acc
  | start :: rest, acc =>
    if rv.getD start 0 < 0 then
      scanStarts rv ml oml segs tl rest acc
    else
      scanStarts rv ml oml segs tl rest
        (scanEnds rv oml segs tl start (candidateEnds rv.length ml start) acc)

/-- One pass of the candidate enumeration: `best_value` starts at `-1000`,
`best_segment` at `None`. -/
def findBestSegment (rv : List ℚ) (ml oml : ℤ) (segs : List (ℕ × ℕ)) (tl : ℕ) :
    ℚ × Option (ℕ × ℕ) :=
  scanStarts rv ml oml segs tl (List.range rv.length) (-1000, none)

/-- The `while total_length < overall_max_length` loop of
`get_best_segments`, with explicit fuel (see module docstring): on each
iteration find the best remaining segment; stop when none exists or its
value is below `minimum_value`; otherwise append it and its score and add
its length to `total_length`. -/
def getBestSegmentsAux (rv : List ℚ) (ml oml : ℤ) (mv : ℚ) :
    ℕ → List (ℕ × ℕ) → List ℚ → ℕ → List (ℕ × ℕ) × List ℚ
  | 0, segs, scores, _ => (segs, scores)
  | fuel + 1, segs, scores, tl =>
    if (tl : ℤ) < oml then
      match findBestSegment rv ml oml segs tl with
      | (bv, some seg) =>
        if bv < mv then (segs, scores)
        else getBestSegmentsAux rv ml oml mv fuel
          (segs ++ [seg]) (scores ++ [bv]) (tl + (seg.2 - seg.1))
      | (_, none) => (segs, scores)
    else (segs, scores)

/-- `get_best_segments(relevance_values, max_length, overall_max_length,
minimum_value)` from `simple_rag.ipynb`: greedy extraction of the best
non-overlapping segments.  Returns `(best_segments, scores)`. -/
def get_best_segments (rv : List ℚ) (ml oml : ℤ) (mv : ℚ) :
    List (ℕ × ℕ) × List ℚ :=
  getBestSegmentsAux rv ml oml mv (oml.toNat + 1) [] [] 0

/-- Two segments (half-open ranges) do not intersect. -/
def SegNonOverlap (p q : ℕ × ℕ) : Prop :=
  p.2 ≤ q.1 ∨ q.2 ≤ p.1

/-- A window `[s, e)` that passes every guard of the candidate enumeration
at the state `(segs, tl)`: `s` is a legal start index, `e` a legal end for
`s`, neither edge chunk has negative value, the window overlaps no selected
segment, and it fits into the remaining budget. -/
def validCandidate (rv : List ℚ) (ml oml : ℤ) (segs : List (ℕ × ℕ)) (tl : ℕ)
    (s e : ℕ) : Prop :=
  s < rv.length ∧ s + 1 ≤ e ∧ (e : ℤ) ≤ (s : ℤ) + ml ∧ e ≤ rv.length ∧
  ¬ rv.getD s 0 < 0 ∧ ¬ rv.getD (e - 1) 0 < 0 ∧
  overlapsAny segs s e = false ∧ (tl : ℤ) + (e : ℤ) - (s : ℤ) ≤ oml

/-- Invariant of the greedy loop state `(best_segments, scores,
total_length)`. -/
structure SearchInv (rv : List ℚ) (ml oml : ℤ) (mv : ℚ) (segs : List (ℕ × ℕ))
    (scores : List ℚ) (tl : ℕ) : Prop where
  nonoverlap : List.Pairwise SegNonOverlap segs
  lengths : ∀ p ∈ segs, p.1 + 1 ≤ p.2 ∧ (p.2 : ℤ) ≤ (p.1 : ℤ) + ml
  total : tl = (segs.map fun p => p.2 - p.1).sum
  budget : segs = [] ∨ (tl : ℤ) ≤ oml
  floor : ∀ q ∈ scores, mv ≤ q
  sorted : List.Pairwise (fun a b => b ≤ a) scores
  scoresEq : scores = segs.map fun p => segmentSum rv p.1 p.2
  dominates : ∀ q ∈ scores, ∀ s e, validCandidate rv ml oml segs tl s e →
    segmentSum rv s e ≤ q

/-- The properties of a finished `get_best_segments` output pair. -/
structure SearchFinal (rv : List ℚ) (ml oml : ℤ) (mv : ℚ)
    (out : List (ℕ × ℕ) × List ℚ) : Prop where
  nonoverlap : List.Pairwise SegNonOverlap out.1
  lengths : ∀ p ∈ out.1, p.1 + 1 ≤ p.2 ∧ (p.2 : ℤ) ≤ (p.1 : ℤ) + ml
  budget : out.1 = [] ∨ (((out.1.map fun p => p.2 - p.1).sum : ℕ) : ℤ) ≤ oml
  floor : ∀ q ∈ out.2, mv ≤ q
  sorted : List.Pairwise (fun a b => b ≤ a) out.2
  scoresEq : out.2 = out.1.map fun p => segmentSum rv p.1 p.2

/-- Modelled from the spec: `transform` in `simple_rag.ipynb` delegates to
scipy's `beta.cdf(x, 0.4, 0.4)`, external library code not in this
repository.  The spec accepts "any monotone, symmetric-around-0.5,
CDF-shaped remapping satisfying `f(0)=0, f(1)=1, f(0.5)=0.5`"; we use the
polynomial CDF-shaped map `3x^2 - 2x^3`, which satisfies exactly those
constraints (`f(1-x) = 1 - f(x)`, monotone on `[0,1]`). -/
noncomputable def transform (x : ℝ) : ℝ :=
  3 * x ^ 2 - 2 * x ^ 3

/-- The chunk value computed in `rerank_chunks`:
`np.exp(-i/decay_rate) * absolute_relevance_value`, where `i` is the rank
(position in the reranked order) and `absolute_relevance_value =
transform(raw)`. -/
noncomputable def compute_chunk_value (raw : ℝ) (rank : ℕ) (decay_rate : ℝ) : ℝ :=
  Real.exp (-(rank : ℝ) / decay_rate) * transform raw

/-- Modelled from the spec: `split_into_chunks` in `simple_rag.ipynb`
delegates to langchain's `RecursiveCharacterTextSpliter(chunk_size,
chunk_overlap=0, length_function=len)`, external library code not in this
repository.  The spec's chunking contract is a non-overlapping, fixed-size
split with sequential indices: chunk `i` is
`text[i*chunk_size : (i+1)*chunk_size]`. -/
def split_into_chunks (text : List Char) (chunk_size : ℕ) : List (List Char) :=
  if h : text = [] ∨ chunk_size = 0 then []
  else text.take chunk_size :: split_into_chunks (text.drop chunk_size) chunk_size
termination_by text.length
decreasing_by
  rcases not_or.mp h with ⟨h1, h2⟩
  have := List.length_pos.mpr h1
  simp only [List.length_drop]
  omega

theorem mem_candidateEnds {n : ℕ} {ml : ℤ} {s e : ℕ} :
    e ∈ candidateEnds n ml s ↔ s + 1 ≤ e ∧ (e : ℤ) ≤ (s : ℤ) + ml ∧ e ≤ n := by
  unfold candidateEnds
  rw [List.mem_range']
  constructor
  · rintro ⟨i, hi, rfl⟩
    omega
  · intro h
    exact ⟨e - (s + 1), by omega, by omega⟩

theorem overlapsAny_eq_false {segs : List (ℕ × ℕ)} {s e : ℕ} :
    overlapsAny segs s e = false ↔ ∀ p ∈ segs, p.2 ≤ s ∨ e ≤ p.1 := by
  simp only [overlapsAny, List.any_eq_false, Bool.and_eq_true, decide_eq_true_eq, not_and,
    not_lt]
  constructor
  · intro h p hp
    have := h p hp
    omega
  · intro h p hp
    have := h p hp
    omega

/-- Soundness of the inner end-scan: if the accumulator's segment (when
present) is a valid candidate scored by its segment sum, the same holds
after scanning any list of legal end positions. -/
theorem scanEnds_sound {rv : List ℚ} {ml oml : ℤ} {segs : List (ℕ × ℕ)} {tl : ℕ}
    {start : ℕ} (hstart : start < rv.length) (hpos : ¬ rv.getD start 0 < 0) :
    ∀ (ends : List ℕ) (acc : ℚ × Option (ℕ × ℕ)),
      (∀ x ∈ ends, x ∈ candidateEnds rv.length ml start) →
      (∀ s e, acc.2 = some (s, e) →
        validCandidate rv ml oml segs tl s e ∧ acc.1 = segmentSum rv s e) →
      ∀ s e, (scanEnds rv oml segs tl start ends acc).2 = some (s, e) →
        validCandidate rv ml oml segs tl s e ∧
          (scanEnds rv oml segs tl start ends acc).1 = segmentSum rv s e := by
  intro ends
  induction ends with
  | nil => intro acc _ hacc; exact hacc
  | cons e0 rest ih =>
    intro acc hends hacc
    have he0 : e0 ∈ candidateEnds rv.length ml start := hends e0 (by simp)
    have hrest : ∀ x ∈ rest, x ∈ candidateEnds rv.length ml start :=
      fun x hx => hends x (by simp [hx])
    simp only [scanEnds]
    by_cases h1 : rv.getD (e0 - 1) 0 < 0
    · simp only [if_pos h1]; exact ih acc hrest hacc
    · simp only [if_neg h1]
      by_cases h2 : overlapsAny segs start e0
      · simp only [if_pos h2]; exact ih acc hrest hacc
      · simp only [if_neg h2]
        by_cases h3 : oml < (tl : ℤ) + (e0 : ℤ) - (start : ℤ)
        · simp only [if_pos h3]; exact ih acc hrest hacc
        · simp only [if_neg h3]
          by_cases h4 : acc.1 < segmentSum rv start e0
          · simp only [if_pos h4]
            refine ih _ hrest ?_
            intro s e hse
            simp only at hse
            obtain ⟨rfl, rfl⟩ : start = s ∧ e0 = e := by
              cases hse; exact ⟨rfl, rfl⟩
            obtain ⟨hle, hub, hn⟩ := mem_candidateEnds.mp he0
            refine ⟨⟨hstart, hle, hub, hn, hpos, h1, ?_, by omega⟩, rfl⟩
            exact Bool.eq_false_iff.mpr h2
          · simp only [if_neg h4]; exact ih acc hrest hacc

/-- The running best value never decreases along the inner end-scan. -/
theorem scanEnds_fst_mono {rv : List ℚ} {oml : ℤ} {segs : List (ℕ × ℕ)} {tl : ℕ}
    {start : ℕ} :
    ∀ (ends : List ℕ) (acc : ℚ × Option (ℕ × ℕ)),
      acc.1 ≤ (scanEnds rv oml segs tl start ends acc).1 := by
  intro ends
  induction ends with
  | nil => intro acc; simp [scanEnds]
  | cons e0 rest ih =>
    intro acc
    simp only [scanEnds]
    by_cases h1 : rv.getD (e0 - 1) 0 < 0
    · simp only [if_pos h1]; exact ih acc
    · simp only [if_neg h1]
      by_cases h2 : overlapsAny segs start e0
      · simp only [if_pos h2]; exact ih acc
      · simp only [if_neg h2]
        by_cases h3 : oml < (tl : ℤ) + (e0 : ℤ) - (start : ℤ)
        · simp only [if_pos h3]; exact ih acc
        · simp only [if_neg h3]
          by_cases h4 : acc.1 < segmentSum rv start e0
          · simp only [if_pos h4]
            exact le_trans (le_of_lt h4) (ih _)
          · simp only [if_neg h4]; exact ih acc

/-- If some end position in the scanned list passes every guard, the final
best value is at least that window's segment sum. -/
theorem scanEnds_ge {rv : List ℚ} {oml : ℤ} {segs : List (ℕ × ℕ)} {tl : ℕ}
    {start : ℕ} {e : ℕ} (h1 : ¬ rv.getD (e - 1) 0 < 0)
    (h2 : overlapsAny segs start e = false)
    (h3 : (tl : ℤ) + (e : ℤ) - (start : ℤ) ≤ oml) :
    ∀ (ends : List ℕ) (acc : ℚ × Option (ℕ × ℕ)), e ∈ ends →
      segmentSum rv start e ≤ (scanEnds rv oml segs tl start ends acc).1 := by
  intro ends
  induction ends with
  | nil => intro acc he; cases he
  | cons e0 rest ih =>
    intro acc he
    rcases List.mem_cons.mp he with rfl | hmem
    · have h2' : ¬ (overlapsAny segs start e = true) := by simp [h2]
      simp only [scanEnds, if_neg h1, if_neg h2', if_neg (not_lt.mpr h3)]
      by_cases h4 : acc.1 < segmentSum rv start e
      · simp only [if_pos h4]
        exact scanEnds_fst_mono rest _
      · simp only [if_neg h4]
        exact le_trans (not_lt.mp h4) (scanEnds_fst_mono rest acc)
    · simp only [scanEnds]
      by_cases g1 : rv.getD (e0 - 1) 0 < 0
      · simp only [if_pos g1]; exact ih acc hmem
      · simp only [if_neg g1]
        by_cases g2 : overlapsAny segs start e0
        · simp only [if_pos g2]; exact ih acc hmem
        · simp only [if_neg g2]
          by_cases g3 : oml < (tl : ℤ) + (e0 : ℤ) - (start : ℤ)
          · simp only [if_pos g3]; exact ih acc hmem
          · simp only [if_neg g3]
            by_cases g4 : acc.1 < segmentSum rv start e0
            · simp only [if_pos g4]; exact ih _ hmem
            · simp only [if_neg g4]; exact ih acc hmem

/-- Soundness of the outer start-scan. -/
theorem scanStarts_sound {rv : List ℚ} {ml oml : ℤ} {segs : List (ℕ × ℕ)} {tl : ℕ} :
    ∀ (starts : List ℕ) (acc : ℚ × Option (ℕ × ℕ)),
      (∀ x ∈ starts, x < rv.length) →
      (∀ s e, acc.2 = some (s, e) →
        validCandidate rv ml oml segs tl s e ∧ acc.1 = segmentSum rv s e) →
      ∀ s e, (scanStarts rv ml oml segs tl starts acc).2 = some (s, e) →
        validCandidate rv ml oml segs tl s e ∧
          (scanStarts rv ml oml segs tl starts acc).1 = segmentSum rv s e := by
  intro starts
  induction starts with
  | nil => intro acc _ hacc; exact hacc
  | cons s0 rest ih =>
    intro acc hstarts hacc
    have hs0 : s0 < rv.length := hstarts s0 (by simp)
    have hrest : ∀ x ∈ rest, x < rv.length := fun x hx => hstarts x (by simp [hx])
    simp only [scanStarts]
    by_cases h1 : rv.getD s0 0 < 0
    · simp only [if_pos h1]; exact ih acc hrest hacc
    · simp only [if_neg h1]
      exact ih _ hrest (scanEnds_sound hs0 h1 _ acc (fun x hx => hx) hacc)

/-- The running best value never decreases along the outer start-scan. -/
theorem scanStarts_fst_mono {rv : List ℚ} {ml oml : ℤ} {segs : List (ℕ × ℕ)} {tl : ℕ} :
    ∀ (starts : List ℕ) (acc : ℚ × Option (ℕ × ℕ)),
      acc.1 ≤ (scanStarts rv ml oml segs tl starts acc).1 := by
  intro starts
  induction starts with
  | nil => intro acc; simp [scanStarts]
  | cons s0 rest ih =>
    intro acc
    simp only [scanStarts]
    by_cases h1 : rv.getD s0 0 < 0
    · simp only [if_pos h1]; exact ih acc
    · simp only [if_neg h1]
      exact le_trans (scanEnds_fst_mono _ acc) (ih _)

/-- If some start in the scanned list carries a window passing every guard,
the final best value is at least that window's segment sum. -/
theorem scanStarts_ge {rv : List ℚ} {ml oml : ℤ} {segs : List (ℕ × ℕ)} {tl : ℕ}
    {s e : ℕ} (hpos : ¬ rv.getD s 0 < 0)
    (hce : e ∈ candidateEnds rv.length ml s)
    (h1 : ¬ rv.getD (e - 1) 0 < 0)
    (h2 : overlapsAny segs s e = false)
    (h3 : (tl : ℤ) + (e : ℤ) - (s : ℤ) ≤ oml) :
    ∀ (starts : List ℕ) (acc : ℚ × Option (ℕ × ℕ)), s ∈ starts →
      segmentSum rv s e ≤ (scanStarts rv ml oml segs tl starts acc).1 := by
  intro starts
  induction starts with
  | nil => intro acc hs; cases hs
  | cons s0 rest ih =>
    intro acc hs
    rcases List.mem_cons.mp hs with rfl | hmem
    · simp only [scanStarts, if_neg hpos]
      exact le_trans (scanEnds_ge h1 h2 h3 _ acc hce) (scanStarts_fst_mono rest _)
    · simp only [scanStarts]
      by_cases g1 : rv.getD s0 0 < 0
      · simp only [if_pos g1]; exact ih acc hmem
      · simp only [if_neg g1]; exact ih _ hmem

/-- Soundness of one full candidate enumeration: a returned best segment is
a valid candidate and the returned best value is its segment sum. -/
theorem findBestSegment_sound {rv : List ℚ} {ml oml : ℤ} {segs : List (ℕ × ℕ)}
    {tl : ℕ} {s e : ℕ}
    (h : (findBestSegment rv ml oml segs tl).2 = some (s, e)) :
    validCandidate rv ml oml segs tl s e ∧
      (findBestSegment rv ml oml segs tl).1 = segmentSum rv s e := by
  refine scanStarts_sound (List.range rv.length) (-1000, none) ?_ ?_ s e h
  · intro x hx; exact List.mem_range.mp hx
  · intro s' e' h'; cases h'

/-- Maximality of one full candidate enumeration: the returned best value
dominates the segment sum of every valid candidate. -/
theorem findBestSegment_ge {rv : List ℚ} {ml oml : ℤ} {segs : List (ℕ × ℕ)}
    {tl : ℕ} {s e : ℕ} (h : validCandidate rv ml oml segs tl s e) :
    segmentSum rv s e ≤ (findBestSegment rv ml oml segs tl).1 := by
  obtain ⟨hs, hle, hub, hn, hpos, hend, hov, hbud⟩ := h
  exact scanStarts_ge hpos (mem_candidateEnds.mpr ⟨hle, hub, hn⟩) hend hov hbud
    (List.range rv.length) (-1000, none) (List.mem_range.mpr hs)

/-- Candidate validity is antitone in the loop state: a window valid after
appending a segment and enlarging the used budget was already valid
before. -/
theorem validCandidate_antitone {rv : List ℚ} {ml oml : ℤ} {segs : List (ℕ × ℕ)}
    {seg : ℕ × ℕ} {tl tl2 : ℕ} (hle : tl ≤ tl2) {s e : ℕ}
    (h : validCandidate rv ml oml (segs ++ [seg]) tl2 s e) :
    validCandidate rv ml oml segs tl s e := by
  obtain ⟨hs, hle1, hub, hn, hpos, hend, hov, hbud⟩ := h
  refine ⟨hs, hle1, hub, hn, hpos, hend, ?_, by omega⟩
  rw [overlapsAny_eq_false] at hov ⊢
  intro p hp
  exact hov p (by simp [hp])

/-- A loop state satisfying the invariant already satisfies the final
output properties if returned as is. -/
theorem searchFinal_of_inv {rv : List ℚ} {ml oml : ℤ} {mv : ℚ}
    {segs : List (ℕ × ℕ)} {scores : List ℚ} {tl : ℕ}
    (hinv : SearchInv rv ml oml mv segs scores tl) :
    SearchFinal rv ml oml mv (segs, scores) := by
  refine ⟨hinv.nonoverlap, hinv.lengths, ?_, hinv.floor, hinv.sorted, hinv.scoresEq⟩
  rcases hinv.budget with h | h
  · exact Or.inl h
  · right
    rw [← hinv.total]
    exact h

/-- Main loop invariant: from any state satisfying `SearchInv`, the loop
returns an output satisfying `SearchFinal`, for every fuel. -/
theorem getBestSegmentsAux_inv {rv : List ℚ} {ml oml : ℤ} {mv : ℚ} :
    ∀ (fuel : ℕ) (segs : List (ℕ × ℕ)) (scores : List ℚ) (tl : ℕ),
      SearchInv rv ml oml mv segs scores tl →
      SearchFinal rv ml oml mv (getBestSegmentsAux rv ml oml mv fuel segs scores tl) := by
  intro fuel
  induction fuel with
  | zero => intro segs scores tl hinv; exact searchFinal_of_inv hinv
  | succ fuel ih =>
    intro segs scores tl hinv
    simp only [getBestSegmentsAux]
    by_cases hwhile : (tl : ℤ) < oml
    · simp only [if_pos hwhile]
      rcases hfb : findBestSegment rv ml oml segs tl with ⟨bv, obs⟩
      cases obs with
      | none => exact searchFinal_of_inv hinv
      | some seg =>
        obtain ⟨s, e⟩ := seg
        obtain ⟨hvc, hbv⟩ := findBestSegment_sound (s := s) (e := e) (by rw [hfb])
        have hbv2 : bv = segmentSum rv s e := by rw [← hbv, hfb]
        by_cases hmin : bv < mv
        · simp only [if_pos hmin]; exact searchFinal_of_inv hinv
        · simp only [if_neg hmin]
          refine ih _ _ _ ?_
          obtain ⟨hs, hle, hub, hn, hpos, hend, hov, hbud⟩ := hvc
          have hcross : ∀ p ∈ segs, SegNonOverlap p (s, e) := by
            intro p hp
            exact (overlapsAny_eq_false.mp hov) p hp
          constructor
          · refine List.pairwise_append.mpr ⟨hinv.nonoverlap, by simp, ?_⟩
            intro p hp q hq
            rcases List.mem_singleton.mp hq with rfl
            exact hcross p hp
          · intro p hp
            rcases List.mem_append.mp hp with h | h
            · exact hinv.lengths p h
            · rcases List.mem_singleton.mp h with rfl
              exact ⟨hle, hub⟩
          · simp only [List.map_append, List.sum_append, List.map_cons, List.map_nil,
              List.sum_cons, List.sum_nil, add_zero, ← hinv.total]
          · right
            have := hbud
            omega
          · intro q hq
            rcases List.mem_append.mp hq with h | h
            · exact hinv.floor q h
            · rcases List.mem_singleton.mp h with rfl
              exact not_lt.mp hmin
          · refine List.pairwise_append.mpr ⟨hinv.sorted, by simp, ?_⟩
            intro a ha b hb
            rcases List.mem_singleton.mp hb with rfl
            have := hinv.dominates a ha s e ⟨hs, hle, hub, hn, hpos, hend, hov, hbud⟩
            rw [hbv2]
            exact this
          · simp only [List.map_append, List.map_cons, List.map_nil, ← hinv.scoresEq, hbv2]
          · intro q hq s2 e2 hvc2
            have hvc3 : validCandidate rv ml oml segs tl s2 e2 :=
              validCandidate_antitone (Nat.le_add_right tl (e - s)) hvc2
            rcases List.mem_append.mp hq with h | h
            · exact hinv.dominates q h s2 e2 hvc3
            · rcases List.mem_singleton.mp h with rfl
              have := findBestSegment_ge hvc3
              rw [hfb] at this
              exact this
    · simp only [if_neg hwhile]
      exact searchFinal_of_inv hinv

/-- The output of `get_best_segments` satisfies all final properties. -/
theorem get_best_segments_spec (rv : List ℚ) (ml oml : ℤ) (mv : ℚ) :
    SearchFinal rv ml oml mv (get_best_segments rv ml oml mv) := by
  apply getBestSegmentsAux_inv
  exact ⟨List.Pairwise.nil, by simp, by simp, Or.inl rfl, by simp,
    List.Pairwise.nil, by simp, by simp⟩

/-- With non-positive `max_length` the inner iteration space is empty. -/
theorem candidateEnds_nil {n : ℕ} {ml : ℤ} {s : ℕ} (h : ml ≤ 0) :
    candidateEnds n ml s = [] := by
  unfold candidateEnds
  rw [Int.toNat_eq_zero.mpr (by omega)]
  rfl

/-- With non-positive `max_length` the outer scan never updates the
accumulator. -/
theorem scanStarts_ml_nonpos {rv : List ℚ} {ml oml : ℤ} {segs : List (ℕ × ℕ)}
    {tl : ℕ} (h : ml ≤ 0) :
    ∀ (starts : List ℕ) (acc : ℚ × Option (ℕ × ℕ)),
      scanStarts rv ml oml segs tl starts acc = acc := by
  intro starts
  induction starts with
  | nil => intro acc; rfl
  | cons s0 rest ih =>
    intro acc
    simp only [scanStarts]
    by_cases h1 : rv.getD s0 0 < 0
    · simp only [if_pos h1]; exact ih acc
    · simp only [if_neg h1, candidateEnds_nil h, scanEnds]
      exact ih acc

theorem take_add_split (l : List Char) (m n : ℕ) :
    l.take (m + n) = l.take m ++ (l.drop m).take n := by
  conv_lhs => rw [← List.take_append_drop m (l.take (m + n))]
  rw [List.take_take, Nat.min_eq_left (Nat.le_add_right m n), ← List.take_drop]

theorem split_into_chunks_nil (k : ℕ) : split_into_chunks [] k = [] := by
  rw [split_into_chunks]
  simp

theorem split_into_chunks_zero (t : List Char) : split_into_chunks t 0 = [] := by
  rw [split_into_chunks]
  simp

theorem split_into_chunks_cons {t : List Char} {k : ℕ} (h1 : t ≠ []) (h2 : k ≠ 0) :
    split_into_chunks t k = t.take k :: split_into_chunks (t.drop k) k := by
  rw [split_into_chunks]
  simp [h1, h2]

/-- Joining the first `j` chunks yields the first `j * k` characters. -/
theorem join_take_split_into_chunks (k : ℕ) :
    ∀ (j : ℕ) (t : List Char),
      ((split_into_chunks t k).take j).flatten = t.take (j * k) := by
  intro j
  induction j with
  | zero => intro t; simp
  | succ j ih =>
    intro t
    by_cases h1 : t = []
    · subst h1; simp [split_into_chunks_nil]
    · by_cases h2 : k = 0
      · subst h2; simp [split_into_chunks_zero]
      · rw [split_into_chunks_cons h1 h2]
        simp only [List.take_succ_cons, List.flatten_cons]
        rw [ih, ← take_add_split]
        congr 1
        ring

/-- Dropping the first `j` chunks is chunking the text with its first
`j * k` characters dropped. -/
theorem drop_split_into_chunks (k : ℕ) :
    ∀ (j : ℕ) (t : List Char),
      (split_into_chunks t k).drop j = split_into_chunks (t.drop (j * k)) k := by
  intro j
  induction j with
  | zero => intro t; simp
  | succ j ih =>
    intro t
    by_cases h1 : t = []
    · subst h1; simp [split_into_chunks_nil]
    · by_cases h2 : k = 0
      · subst h2; simp [split_into_chunks_zero]
      · rw [split_into_chunks_cons h1 h2]
        simp only [List.drop_succ_cons]
        rw [ih, List.drop_drop]
        have h3 : k + j * k = (j + 1) * k := by ring
        rw [h3]

/-- C1: for every input list `relevance_values` and parameters
`max_length`, `overall_max_length`, `minimum_value`, every pair of segments
`(s1, e1)`, `(s2, e2)` returned by `get_best_segments` is non-overlapping:
either `e1 <= s2` or `e2 <= s1`. -/
theorem get_best_segments_nonoverlap (rv : List ℚ) (ml oml : ℤ) (mv : ℚ) :
    List.Pairwise (fun p q : ℕ × ℕ => p.2 ≤ q.1 ∨ q.2 ≤ p.1)
      (get_best_segments rv ml oml mv).1 :=
  (get_best_segments_spec rv ml oml mv).nonoverlap

/-- C2: the intent of the source (its overlap-check line, as written, is
ill-formed Python and raises at the first candidate window; the final
`return` is dedented out of the function body).  The modelled function —
the source with the overlap test as specified — evaluates without error on
a well-formed numeric input that exercises the candidate enumeration, the
overlap test and the return. -/
theorem get_best_segments_wellformed_eval :
    get_best_segments [0.5] 1 1 0 = ([(0, 1)], [0.5]) := by
  with_unfolding_all rfl

/-- C3: on `relevance_values = [-0.2, -0.2, 0.4, 0.8, -0.2]` with
`max_length = 5`, `overall_max_length = 5`, `minimum_value = 0.5`,
`get_best_segments` returns exactly one segment, `(2, 4)`, with score
`1.2 = 0.4 + 0.8`. -/
theorem get_best_segments_single_spike :
    get_best_segments [-0.2, -0.2, 0.4, 0.8, -0.2] 5 5 0.5 = ([(2, 4)], [1.2]) ∧
      (1.2 : ℚ) = 0.4 + 0.8 :=
  ⟨by with_unfolding_all rfl, by with_unfolding_all rfl⟩

/-- C4: the sum of `(end - start)` over all returned segments is at most
`overall_max_length` (precondition: `overall_max_length` positive). -/
theorem get_best_segments_budget_bound (rv : List ℚ) (ml oml : ℤ) (mv : ℚ)
    (h : 0 < oml) :
    ((((get_best_segments rv ml oml mv).1.map fun p => p.2 - p.1).sum : ℕ) : ℤ) ≤ oml := by
  rcases (get_best_segments_spec rv ml oml mv).budget with hb | hb
  · rw [hb]
    simpa using le_of_lt h
  · exact hb

theorem get_best_segments_budget_bound_witness :
    (0 : ℤ) < 5 ∧
      ((((get_best_segments [-0.2, -0.2, 0.4, 0.8, -0.2] 5 5 0.5).1.map
          fun p => p.2 - p.1).sum : ℕ) : ℤ) ≤ 5 :=
  ⟨by decide, get_best_segments_budget_bound [-0.2, -0.2, 0.4, 0.8, -0.2] 5 5 0.5 (by decide)⟩

/-- C5: every returned segment `(start, end)` satisfies
`0 < end - start <= max_length` (precondition: `max_length` positive). -/
theorem get_best_segments_length_bound (rv : List ℚ) (ml oml : ℤ) (mv : ℚ)
    (hml : 0 < ml) (p : ℕ × ℕ) (hp : p ∈ (get_best_segments rv ml oml mv).1) :
    0 < p.2 - p.1 ∧ (p.2 : ℤ) - (p.1 : ℤ) ≤ ml := by
  obtain ⟨h1, h2⟩ := (get_best_segments_spec rv ml oml mv).lengths p hp
  omega

theorem get_best_segments_length_bound_witness :
    (0 : ℤ) < 5 ∧
      (2, 4) ∈ (get_best_segments [-0.2, -0.2, 0.4, 0.8, -0.2] 5 5 0.5).1 ∧
      (0 < 4 - 2 ∧ (4 : ℤ) - (2 : ℤ) ≤ 5) :=
  ⟨by decide, of_decide_eq_true (by with_unfolding_all rfl),
    get_best_segments_length_bound [-0.2, -0.2, 0.4, 0.8, -0.2] 5 5 0.5 (by decide)
      (2, 4) (of_decide_eq_true (by with_unfolding_all rfl))⟩

/-- C6: every returned score is at least `minimum_value`, and the scores
list is exactly the list of segment sums of the returned segments (the
i-th score is the sum of `relevance_values` over the i-th segment). -/
theorem get_best_segments_score_floor (rv : List ℚ) (ml oml : ℤ) (mv : ℚ)
    (q : ℚ) (hq : q ∈ (get_best_segments rv ml oml mv).2) :
    mv ≤ q ∧ (get_best_segments rv ml oml mv).2 =
      (get_best_segments rv ml oml mv).1.map fun p => segmentSum rv p.1 p.2 :=
  ⟨(get_best_segments_spec rv ml oml mv).floor q hq,
    (get_best_segments_spec rv ml oml mv).scoresEq⟩

theorem get_best_segments_score_floor_witness :
    (1.2 : ℚ) ∈ (get_best_segments [-0.2, -0.2, 0.4, 0.8, -0.2] 5 5 0.5).2 ∧
      ((0.5 : ℚ) ≤ 1.2 ∧
        (get_best_segments [-0.2, -0.2, 0.4, 0.8, -0.2] 5 5 0.5).2 =
          (get_best_segments [-0.2, -0.2, 0.4, 0.8, -0.2] 5 5 0.5).1.map
            fun p => segmentSum [-0.2, -0.2, 0.4, 0.8, -0.2] p.1 p.2) :=
  ⟨of_decide_eq_true (by with_unfolding_all rfl),
    get_best_segments_score_floor [-0.2, -0.2, 0.4, 0.8, -0.2] 5 5 0.5 1.2
      (of_decide_eq_true (by with_unfolding_all rfl))⟩

/-- C8: the returned scores list is non-increasing in selection order:
every later-selected segment's score is at most every earlier one's. -/
theorem get_best_segments_scores_sorted (rv : List ℚ) (ml oml : ℤ) (mv : ℚ) :
    List.Pairwise (fun a b : ℚ => b ≤ a) (get_best_segments rv ml oml mv).2 :=
  (get_best_segments_spec rv ml oml mv).sorted

/-- C7 counterexample: called with the malformed parameter
`max_length = 0`, `get_best_segments` silently returns the empty result
`([], [])` — it does not signal an invalid-argument error. -/
theorem get_best_segments_malformed_counterexample :
    get_best_segments [1] 0 5 0.7 = ([], []) := by
  with_unfolding_all rfl

/-- C7 amended: with `max_length <= 0` or `overall_max_length <= 0`,
`get_best_segments` performs no parameter validation and silently returns
the empty result `([], [])`. -/
theorem get_best_segments_malformed_silent (rv : List ℚ) (ml oml : ℤ) (mv : ℚ)
    (h : ml ≤ 0 ∨ oml ≤ 0) :
    get_best_segments rv ml oml mv = ([], []) := by
  unfold get_best_segments
  simp only [getBestSegmentsAux]
  rcases h with h | h
  · split
    · have hfb : findBestSegment rv ml oml [] 0 = (-1000, none) := by
        unfold findBestSegment
        rw [scanStarts_ml_nonpos h]
      rw [hfb]
    · rfl
  · split
    · rename_i hw
      exfalso
      omega
    · rfl

theorem get_best_segments_malformed_silent_witness :
    ((5 : ℤ) ≤ 0 ∨ (-1 : ℤ) ≤ 0) ∧ get_best_segments [1] 5 (-1) 0.7 = ([], []) :=
  ⟨Or.inr (by decide), get_best_segments_malformed_silent [1] 5 (-1) 0.7 (Or.inr (by decide))⟩

/-- C9 counterexample: at `raw_relevance = 0` the transformed relevance is
`0` (the spec requires `f(0) = 0` of every admissible transform), so the
chunk value is `0` at every rank — increasing the rank from 0 to 1 does not
strictly decrease it. -/
theorem compute_chunk_value_not_strict_at_zero :
    ¬ compute_chunk_value 0 1 30 < compute_chunk_value 0 0 30 := by
  simp [compute_chunk_value, transform]

/-- C9 amended: for a fixed raw relevance in `[0, 1]` and decay rate 30,
the chunk value `exp(-rank/30) * transform(raw)` is strictly decreasing in
the rank whenever `raw > 0` (so `transform raw > 0`), and the value at
`raw = 1, rank = 0` is the maximum attainable. -/
theorem compute_chunk_value_decay (raw : ℝ) (h0 : 0 ≤ raw) (h1 : raw ≤ 1)
    (rank r1 r2 : ℕ) (hr : r1 < r2) :
    (0 < raw → compute_chunk_value raw r2 30 < compute_chunk_value raw r1 30) ∧
      compute_chunk_value raw rank 30 ≤ compute_chunk_value 1 0 30 := by
  have htr0 : 0 ≤ transform raw := by unfold transform; nlinarith
  have htr1 : transform raw ≤ 1 := by
    unfold transform
    nlinarith [mul_nonneg (sq_nonneg (1 - raw)) (by linarith : (0 : ℝ) ≤ 1 + 2 * raw)]
  constructor
  · intro hpos
    have htrpos : 0 < transform raw := by unfold transform; nlinarith
    unfold compute_chunk_value
    apply mul_lt_mul_of_pos_right _ htrpos
    apply Real.exp_lt_exp.mpr
    have hcast : (r1 : ℝ) < (r2 : ℝ) := by exact_mod_cast hr
    linarith
  · have hmax : compute_chunk_value 1 0 30 = 1 := by
      unfold compute_chunk_value transform
      norm_num
    rw [hmax]
    have hnonneg : (0 : ℝ) ≤ (rank : ℝ) := Nat.cast_nonneg rank
    have harg : -(rank : ℝ) / 30 ≤ 0 := by
      rw [neg_div]
      have := div_nonneg hnonneg (by norm_num : (0 : ℝ) ≤ 30)
      linarith
    have hexp1 : Real.exp (-(rank : ℝ) / 30) ≤ 1 := by
      calc Real.exp (-(rank : ℝ) / 30) ≤ Real.exp 0 := Real.exp_le_exp.mpr harg
        _ = 1 := Real.exp_zero
    have hexp0 : 0 ≤ Real.exp (-(rank : ℝ) / 30) := (Real.exp_pos _).le
    unfold compute_chunk_value
    nlinarith

theorem compute_chunk_value_decay_witness :
    ((0 : ℝ) ≤ 1 ∧ (1 : ℝ) ≤ 1 ∧ (0 : ℕ) < 1) ∧
      ((0 < (1 : ℝ) → compute_chunk_value 1 1 30 < compute_chunk_value 1 0 30) ∧
        compute_chunk_value 1 2 30 ≤ compute_chunk_value 1 0 30) :=
  ⟨⟨zero_le_one, le_refl 1, by decide⟩,
    compute_chunk_value_decay 1 zero_le_one (le_refl 1) 2 0 1 (by decide)⟩

/-- C10: concatenating, in index order and with no separator, chunks
`s .. e-1` produced by the non-overlapping fixed-size chunker reproduces
exactly the substring of the text spanned by those chunks (the characters
from position `s * chunk_size` up to `e * chunk_size`, clipped at the end
of the text). -/
theorem split_into_chunks_concat_roundtrip (text : List Char) (chunk_size s e : ℕ) :
    (((split_into_chunks text chunk_size).drop s).take (e - s)).flatten
      = (text.drop (s * chunk_size)).take ((e - s) * chunk_size) := by
  rw [drop_split_into_chunks, join_take_split_into_chunks]
